import Mathlib

/-!
Shallow embedding of the HTML-section-to-table extraction core of
`src/lib/functions/parse.ts` (functions `parseHtmlH1H2Tables`,
`parseSingleTable`, `findNextTableSibling`) together with the whitelist
constants of `src/lib/constants/whitelist.ts`.

The DOM produced by `htmlparser2.parseDocument` is modelled as a forest of
nodes.  Each node carries a numeric identifier playing the role of JavaScript
reference identity (the source compares nodes with `!==`); an element node has
a tag name and an ordered child list, a text node has its character data, and
every other node kind (comments, directives, CDATA) is collapsed into
`HNode.other` since the source only ever inspects `type === 'tag'` nodes and
text content.
-/

inductive HNode where
  | elem (id : Nat) (name : String) (children : List HNode)
  | text (id : Nat) (data : String)
  | other (id : Nat)

/-- The identity of a node: stands for JavaScript reference identity. -/
def HNode.nodeId : HNode → Nat
  | .elem i _ _ => i
  | .text i _ => i
  | .other i => i

/-- Child list of a node (non-elements have none that the source ever visits). -/
def HNode.childList : HNode → List HNode
  | .elem _ _ cs => cs
  | _ => []

/-- `node.type === 'tag' && node.name === nm`, the predicate shape used for
every `DomUtils.findAll` call and every tag test in `parse.ts`. -/
def isTagNamed (nm : String) : HNode → Bool
  | .elem _ n _ => n == nm
  | _ => false

mutual

/-- `DomUtils.textContent`: concatenation of the character data of all
descendant text nodes, in document order. -/
def textContent : HNode → String
  | .elem _ _ cs => textContentList cs
  | .text _ s => s
  | .other _ => ""

/-- `DomUtils.textContent` of a node list, concatenated in order. -/
def textContentList : List HNode → String
  | [] => ""
  | n :: rest => textContent n ++ textContentList rest

end

mutual

/-- `DomUtils.findAll` rooted at a single node: the node itself if it is a
matching element, followed by all matching descendants in pre-order
(descending into children of matched elements as well). -/
def findAllNode (p : HNode → Bool) : HNode → List HNode
  | .elem i nm cs =>
      (if p (.elem i nm cs) then [HNode.elem i nm cs] else []) ++
        findAllList p cs
  | _ => []

/-- `DomUtils.findAll` over a forest, in document order. -/
def findAllList (p : HNode → Bool) : List HNode → List HNode
  | [] => []
  | n :: rest => findAllNode p n ++ findAllList p rest

end

mutual

/-- Search inside one node for the node with the given identity and return
its following siblings there. -/
def siblingsInNode : HNode → Nat → Option (List HNode)
  | .elem _ _ cs, i => siblingsAfterId cs i
  | _, _ => none

/-- Locate the node with the given identity (first pre-order occurrence) and
return the list of its following siblings, i.e. the chain reachable from its
`nextSibling` pointer. -/
def siblingsAfterId : List HNode → Nat → Option (List HNode)
  | [], _ => none
  | n :: rest, i =>
      if n.nodeId == i then some rest
      else
        match siblingsInNode n i with
        | some l => some l
        | none => siblingsAfterId rest i

end

/-- JavaScript object property assignment `m[k] = v` on a string-keyed object
modelled as an insertion-ordered association list: an existing key keeps its
position and gets the new value, a fresh key is appended at the end. -/
def setKey {α : Type} (m : List (String × α)) (k : String) (v : α) :
    List (String × α) :=
  if m.any (fun p => p.1 == k) then
    m.map (fun p => if p.1 == k then (k, v) else p)
  else m ++ [(k, v)]

/-- Key membership in an insertion-ordered association list. -/
def hasKey {α : Type} (m : List (String × α)) (k : String) : Bool :=
  m.any (fun p => p.1 == k)

/-- JavaScript `String.prototype.trim`: strip leading and trailing whitespace
(executable on the character list, unlike `String.trim`, so that concrete
documents evaluate inside the kernel). -/
def jsTrim (s : String) : String :=
  ⟨((s.data.dropWhile Char.isWhitespace).reverse.dropWhile
      Char.isWhitespace).reverse⟩

/-- `H1_WHITELIST` of `src/lib/constants/whitelist.ts`. -/
def H1_WHITELIST : List String :=
  ["Call of Duty: Black Ops 6",
   "Call of Duty: Black Ops Cold War",
   "Activision Account Shared",
   "Call of Duty: Modern Warfare",
   "Call of Duty: Modern Warfare II",
   "Call of Duty: Modern Warfare III",
   "Call of Duty: Vanguard",
   "Call of Duty: Warzone 2.0",
   "Call of Duty: Warzone Mobile"]

/-- `H2_WHITELIST` of `src/lib/constants/whitelist.ts`. -/
def H2_WHITELIST : List String :=
  ["Campaign Checkpoint Data (reverse chronological)",
   "Multiplayer Match Data (reverse chronological)",
   "PromoCodes",
   "Zombies Match Data (reverse chronological)",
   "Campaign Data (reverse chronological)",
   "Sessions Data (reverse chronological)",
   "Gamertag Data (reverse chronological)",
   "Zombies Data (reverse chronological)",
   "CoOp Match Data (reverse chronological)",
   "Mobile Hardware Data (reverse chronological)"]

/-- A row-record: `Record<string, string>` with insertion order. -/
abbrev RowRecord := List (String × String)

/-- The sub-map under one H1 key: H2 heading text to table data. -/
abbrev InnerMap := List (String × List RowRecord)

/-- `ParsedData` of `parse.ts`: H1 heading text to its sub-map. -/
abbrev ParsedData := List (String × InnerMap)

/-- The headers of a table node: trimmed text of every `<th>` found anywhere
inside it, in document order (`parseSingleTable`, first statement). -/
def tableHeaders (t : HNode) : List String :=
  (findAllNode (isTagNamed "th") t).map (fun th => jsTrim (textContent th))

/-- All `<tr>` rows found anywhere inside a table node, in document order. -/
def tableRows (t : HNode) : List HNode :=
  findAllNode (isTagNamed "tr") t

/-- All `<td>` cells found anywhere inside a row node, in document order. -/
def rowCells (r : HNode) : List HNode :=
  findAllNode (isTagNamed "td") r

/-- `tds.forEach((td, i) => rowObj[headers[i]] = textContent(td).trim())`:
builds one row-record by positional pairing (only invoked when the two lists
have equal length, where `zip` loses nothing). -/
def buildRow (headers : List String) (tds : List HNode) : RowRecord :=
  (headers.zip (tds.map (fun td => jsTrim (textContent td)))).foldl
    (fun r p => setKey r p.1 p.2) []

/-- `parseSingleTable` of `parse.ts`: headers from all `<th>`, then one record
per `<tr>` whose `<td>` count equals the header count; mismatched rows are
skipped. -/
def parseSingleTable (t : HNode) : List RowRecord :=
  (tableRows t).foldl
    (fun acc row =>
      if (rowCells row).length == (tableHeaders t).length then
        acc ++ [buildRow (tableHeaders t) (rowCells row)]
      else acc)
    []

/-- `findNextTableSibling` of `parse.ts`, acting on the list of following
siblings: scan forward, give up at an `<h2>` or `<h1>`, succeed at a
`<table>`, give up when the chain is exhausted. -/
def findNextTableSibling : List HNode → Option HNode
  | [] => none
  | n :: rest =>
      if isTagNamed "h2" n then none
      else if isTagNamed "h1" n then none
      else if isTagNamed "table" n then some n
      else findNextTableSibling rest

/-- The inner `while (sibling && sibling !== nextH1Node)` loop of
`parseHtmlH1H2Tables`: walk the sibling chain, stop at the boundary node
(compared by identity), and for every whitelisted `<h2>` whose forward scan
finds a table, store the materialized table under that heading's text. -/
def walkSection (boundary : Option Nat) : List HNode → InnerMap → InnerMap
  | [], acc => acc
  | s :: rest, acc =>
      if boundary == some s.nodeId then acc
      else if isTagNamed "h2" s then
        if H2_WHITELIST.contains (jsTrim (textContent s)) then
          match findNextTableSibling rest with
          | some t =>
              walkSection boundary rest
                (setKey acc (jsTrim (textContent s)) (parseSingleTable t))
          | none => walkSection boundary rest acc
        else walkSection boundary rest acc
      else walkSection boundary rest acc

/-- The outer `for` loop of `parseHtmlH1H2Tables` over the collected `<h1>`
elements: whitelist check on the trimmed heading text, then the section walk
bounded by the next collected `<h1>`'s identity.  Writing the finished
sub-map with `setKey` is equivalent to the source's `parsed[h1Text] = {}`
followed by in-place inserts, since no other key of `parsed` is touched in
between. -/
def parseLoop (doc : List HNode) : List HNode → ParsedData → ParsedData
  | [], parsed => parsed
  | h :: rest, parsed =>
      if H1_WHITELIST.contains (jsTrim (textContent h)) then
        parseLoop doc rest
          (setKey parsed (jsTrim (textContent h))
            (walkSection (rest.head?.map HNode.nodeId)
              ((siblingsAfterId doc h.nodeId).getD []) []))
      else parseLoop doc rest parsed

/-- `parseHtmlH1H2Tables` of `parse.ts`, starting from the parsed document
forest: collect all `<h1>` elements in document order and run the section
loop. -/
def parseHtmlH1H2Tables (doc : List HNode) : ParsedData :=
  parseLoop doc (findAllList (isTagNamed "h1") doc) []

/-! ## Basic lemmas about tags, assignment and record building -/

theorem isTagNamed_eq_false_of_ne {nm nm' : String} (h : nm ≠ nm') {n : HNode}
    (hn : isTagNamed nm n = true) : isTagNamed nm' n = false := by
  cases n with
  | elem i name cs =>
      simp only [isTagNamed] at hn ⊢
      exact beq_eq_false_iff_ne.mpr (beq_iff_eq.mp hn ▸ h)
  | text i s => rfl
  | other i => rfl

theorem mem_setKey {α : Type} {m : List (String × α)} {k : String} {v : α}
    {x : String × α} (hx : x ∈ setKey m k v) : x = (k, v) ∨ x ∈ m := by
  unfold setKey at hx
  by_cases hc : m.any (fun p => p.1 == k) = true
  · rw [if_pos hc] at hx
    obtain ⟨y, hy, hxy⟩ := List.mem_map.mp hx
    by_cases hk : (y.1 == k) = true
    · left; rw [← hxy]; simp [hk]
    · right; rw [← hxy]; simp [hk]; exact hy
  · rw [if_neg hc] at hx
    rcases List.mem_append.mp hx with h | h
    · right; exact h
    · left; simpa using h

theorem self_mem_setKey {α : Type} (m : List (String × α)) (k : String) (v : α) :
    (k, v) ∈ setKey m k v := by
  unfold setKey
  by_cases hc : m.any (fun p => p.1 == k) = true
  · rw [if_pos hc]
    obtain ⟨y, hy, hk⟩ := List.any_eq_true.mp hc
    refine List.mem_map.mpr ⟨y, hy, ?_⟩
    simp [hk]
  · rw [if_neg hc]; simp

theorem mem_setKey_of_ne {α : Type} {m : List (String × α)} {k : String} {v : α}
    {x : String × α} (hx : x ∈ m) (hne : x.1 ≠ k) : x ∈ setKey m k v := by
  unfold setKey
  by_cases hc : m.any (fun p => p.1 == k) = true
  · rw [if_pos hc]
    refine List.mem_map.mpr ⟨x, hx, ?_⟩
    simp [beq_eq_false_iff_ne.mpr hne]
  · rw [if_neg hc]; exact List.mem_append.mpr (Or.inl hx)

theorem hasKey_iff {α : Type} (m : List (String × α)) (k : String) :
    hasKey m k = true ↔ ∃ x ∈ m, x.1 = k := by
  unfold hasKey
  rw [List.any_eq_true]
  constructor
  · rintro ⟨x, hx, he⟩; exact ⟨x, hx, beq_iff_eq.mp he⟩
  · rintro ⟨x, hx, he⟩; exact ⟨x, hx, beq_iff_eq.mpr he⟩

theorem hasKey_setKey_iff {α : Type} (m : List (String × α)) (k' k : String) (v : α) :
    hasKey (setKey m k' v) k = true ↔ (k' = k ∨ hasKey m k = true) := by
  rw [hasKey_iff]
  constructor
  · rintro ⟨x, hx, he⟩
    rcases mem_setKey hx with rfl | hm
    · exact Or.inl he
    · exact Or.inr ((hasKey_iff m k).mpr ⟨x, hm, he⟩)
  · rintro (he | hm)
    · exact ⟨(k', v), self_mem_setKey m k' v, he⟩
    · obtain ⟨x, hx, he⟩ := (hasKey_iff m k).mp hm
      by_cases hxk : x.1 = k'
      · exact ⟨(k', v), self_mem_setKey m k' v, hxk ▸ he⟩
      · exact ⟨x, mem_setKey_of_ne hx hxk, he⟩

theorem setKey_fresh {α : Type} {m : List (String × α)} {k : String} (v : α)
    (h : hasKey m k = false) : setKey m k v = m ++ [(k, v)] := by
  unfold hasKey at h
  unfold setKey
  rw [if_neg (by rw [h]; exact Bool.false_ne_true)]

/-! ## The materializer as a filter-and-map over the rows -/

theorem foldl_append_ite_eq_filter_map {α β : Type} (p : α → Bool) (f : α → β) :
    ∀ (l : List α) (acc : List β),
      l.foldl (fun acc x => if p x then acc ++ [f x] else acc) acc =
        acc ++ (l.filter p).map f := by
  intro l
  induction l with
  | nil => intro acc; simp
  | cons x xs ih =>
      intro acc
      simp only [List.foldl_cons, List.filter_cons]
      by_cases hx : p x = true
      · rw [if_pos hx, if_pos hx, ih]
        simp
      · rw [if_neg hx, if_neg hx, ih]

/-- `parseSingleTable` keeps exactly the aligned rows, in order, and the record
emitted for a row depends only on that row's cells and the table's headers. -/
theorem parseSingleTable_eq_filter_map (t : HNode) :
    parseSingleTable t =
      ((tableRows t).filter
          (fun row => (rowCells row).length == (tableHeaders t).length)).map
        (fun row => buildRow (tableHeaders t) (rowCells row)) := by
  unfold parseSingleTable
  rw [foldl_append_ite_eq_filter_map
    (fun row => (rowCells row).length == (tableHeaders t).length)
    (fun row => buildRow (tableHeaders t) (rowCells row))]
  simp

/-! ## Row records built from pairwise-distinct headers -/

theorem map_fst_zip_sublist {α β : Type} :
    ∀ (ks : List α) (vs : List β), ((ks.zip vs).map Prod.fst).Sublist ks := by
  intro ks
  induction ks with
  | nil => intro vs; simp
  | cons k ks ih =>
      intro vs
      cases vs with
      | nil => simp
      | cons v vs =>
          simp only [List.zip_cons_cons, List.map_cons]
          exact (ih vs).cons₂ k

theorem foldl_setKey_eq_append {α : Type} :
    ∀ (L acc : List (String × α)),
      (L.map Prod.fst).Nodup →
      (∀ p ∈ L, hasKey acc p.1 = false) →
      L.foldl (fun r q => setKey r q.1 q.2) acc = acc ++ L := by
  intro L
  induction L with
  | nil => intro acc _ _; simp
  | cons q L ih =>
      intro acc hnd hfresh
      simp only [List.foldl_cons]
      rw [setKey_fresh q.2 (hfresh q (by simp))]
      have hq : (q.1, q.2) = q := rfl
      rw [hq]
      have hndL : (L.map Prod.fst).Nodup := (List.nodup_cons.mp hnd).2
      have hqL : q.1 ∉ L.map Prod.fst := (List.nodup_cons.mp hnd).1
      rw [ih (acc ++ [q]) hndL ?_]
      · simp
      · intro p hp
        have h1 : hasKey acc p.1 = false := hfresh p (by simp [hp])
        have h2 : q.1 ≠ p.1 := fun he => hqL (he ▸ List.mem_map.mpr ⟨p, hp, rfl⟩)
        unfold hasKey at h1 ⊢
        rw [List.any_append, h1]
        simp [beq_eq_false_iff_ne.mpr h2]

theorem buildRow_eq_zip (headers : List String) (tds : List HNode)
    (hnd : headers.Nodup) :
    buildRow headers tds =
      headers.zip (tds.map (fun td => jsTrim (textContent td))) := by
  unfold buildRow
  rw [foldl_setKey_eq_append _ []
    (((map_fst_zip_sublist headers _)).nodup hnd) (fun p _ => rfl)]
  rfl

/-! ## Claim C4: strict row/header alignment -/

/-- C4: every table row whose data-cell count differs from the header-cell
count contributes no record: the output is exactly the aligned rows, in
order, each mapped independently of the other rows to its record, and the
output length is the number of aligned rows. -/
theorem c4_misaligned_rows_discarded (t : HNode) :
    parseSingleTable t =
      ((tableRows t).filter
          (fun row => (rowCells row).length == (tableHeaders t).length)).map
        (fun row => buildRow (tableHeaders t) (rowCells row)) ∧
    (parseSingleTable t).length =
      ((tableRows t).filter
          (fun row => (rowCells row).length == (tableHeaders t).length)).length :=
  ⟨parseSingleTable_eq_filter_map t, by rw [parseSingleTable_eq_filter_map t]; simp⟩

/-! ## Claim C3: aligned rows become records keyed in header order -/

/-- C3 (amended with pairwise-distinct headers): when the trimmed header
texts are pairwise distinct, every aligned row yields the record pairing
header `i` with the trimmed text of data cell `i`, fields in header order. -/
theorem c3_aligned_row_record (t : HNode) (hnd : (tableHeaders t).Nodup) :
    parseSingleTable t =
      ((tableRows t).filter
          (fun row => (rowCells row).length == (tableHeaders t).length)).map
        (fun row =>
          (tableHeaders t).zip
            ((rowCells row).map (fun td => jsTrim (textContent td)))) := by
  rw [parseSingleTable_eq_filter_map t]
  exact List.map_congr_left (fun row _ => buildRow_eq_zip _ _ hnd)

/-- A table whose two header cells carry the same text, with one aligned
two-cell data row. -/
def dupHeaderTable : HNode :=
  HNode.elem 0 "table"
    [HNode.elem 1 "tr" [HNode.elem 2 "th" [HNode.text 3 "A"],
                        HNode.elem 4 "th" [HNode.text 5 "A"]],
     HNode.elem 6 "tr" [HNode.elem 7 "td" [HNode.text 8 "x"],
                        HNode.elem 9 "td" [HNode.text 10 "y"]]]

/-- C3 counterexample: a table with N = 2 header cells both reading "A" and an
aligned row with 2 data cells emits the single-field record {A: "y"}, not a
record with 2 fields — the later same-named column overwrote the earlier. -/
theorem c3_counterexample :
    (tableHeaders dupHeaderTable).length = 2 ∧
    parseSingleTable dupHeaderTable = [[("A", "y")]] ∧
    ¬ ∀ r ∈ parseSingleTable dupHeaderTable, r.length = 2 := by
  decide

/-- A table with two distinct headers and one aligned data row. -/
def alignedTable : HNode :=
  HNode.elem 0 "table"
    [HNode.elem 1 "tr" [HNode.elem 2 "th" [HNode.text 3 " Header1 "],
                        HNode.elem 4 "th" [HNode.text 5 "Header2"]],
     HNode.elem 6 "tr" [HNode.elem 7 "td" [HNode.text 8 "Data1"],
                        HNode.elem 9 "td" [HNode.text 10 " Data2 "]]]

theorem c3_aligned_row_record_witness :
    (tableHeaders alignedTable).Nodup ∧
    parseSingleTable alignedTable =
      [[("Header1", "Data1"), ("Header2", "Data2")]] := by
  refine ⟨by decide, ?_⟩
  rw [c3_aligned_row_record alignedTable (by decide)]
  decide

/-! ## Claim C1: empty tables -/

/-- A table with no header cells but one row without data cells. -/
def noThTable : HNode := HNode.elem 0 "table" [HNode.elem 1 "tr" []]

/-- C1 counterexample: a table with no header cells does not always yield an
empty sequence — a row with zero data cells is aligned with the zero headers
and emits an empty record. -/
theorem c1_counterexample :
    tableHeaders noThTable = [] ∧
    parseSingleTable noThTable = [[]] ∧
    parseSingleTable noThTable ≠ [] := by
  decide

/-- C1 (amended): a table with no row elements yields the empty sequence;
a table with no header cells yields one empty record per row with zero data
cells (rows with data cells are discarded), hence not necessarily the empty
sequence. -/
theorem c1_empty_table_amended (t : HNode) :
    (tableRows t = [] → parseSingleTable t = []) ∧
    (tableHeaders t = [] →
      parseSingleTable t =
        ((tableRows t).filter (fun row => (rowCells row).length == 0)).map
          (fun _ => ([] : RowRecord))) := by
  constructor
  · intro h
    rw [parseSingleTable_eq_filter_map t, h]
    rfl
  · intro h
    rw [parseSingleTable_eq_filter_map t, h]
    simp only [List.length_nil]
    exact List.map_congr_left (fun row _ => rfl)

/-- A table with a header cell but no rows at all. -/
def noRowsTable : HNode :=
  HNode.elem 0 "table" [HNode.elem 1 "th" [HNode.text 2 "H"]]

theorem c1_empty_table_amended_witness :
    tableRows noRowsTable = [] ∧ parseSingleTable noRowsTable = [] :=
  ⟨rfl, (c1_empty_table_amended noRowsTable).1 rfl⟩

/-! ## Claim C5: the table-locating sibling scan -/

/-- C5: the sibling scan is decided by the first sibling that is a table,
a sub-level heading or a top-level heading: it returns that sibling exactly
when it is a table, and not-found when a heading comes first or when the
siblings are exhausted without any of the three appearing. -/
theorem c5_find_next_table_spec (sibs : List HNode) :
    findNextTableSibling sibs =
      (sibs.find? (fun n =>
          isTagNamed "h2" n || isTagNamed "h1" n || isTagNamed "table" n)).bind
        (fun n => if isTagNamed "table" n then some n else none) := by
  induction sibs with
  | nil => rfl
  | cons n rest ih =>
      by_cases h2 : isTagNamed "h2" n = true
      · have ht : isTagNamed "table" n = false :=
          isTagNamed_eq_false_of_ne (by decide) h2
        simp [findNextTableSibling, List.find?_cons, h2, ht]
      · by_cases h1 : isTagNamed "h1" n = true
        · have ht : isTagNamed "table" n = false :=
            isTagNamed_eq_false_of_ne (by decide) h1
          simp [findNextTableSibling, List.find?_cons, h2, h1, ht]
        · by_cases ht : isTagNamed "table" n = true
          · simp [findNextTableSibling, List.find?_cons, h2, h1, ht]
          · simp [findNextTableSibling, List.find?_cons, h2, h1, ht, ih]

/-! ## Claim C6: no whitelisted top-level heading -/

/-- C6: when no collected `<h1>` has whitelisted trimmed text, the extraction
returns the empty mapping. -/
theorem c6_no_whitelisted_h1_empty (doc : List HNode)
    (h : ∀ n ∈ findAllList (isTagNamed "h1") doc,
        H1_WHITELIST.contains (jsTrim (textContent n)) = false) :
    parseHtmlH1H2Tables doc = [] := by
  unfold parseHtmlH1H2Tables
  have main : ∀ l, (∀ n ∈ l, H1_WHITELIST.contains (jsTrim (textContent n)) = false) →
      parseLoop doc l [] = [] := by
    intro l
    induction l with
    | nil => intro _; rfl
    | cons x xs ih =>
        intro hl
        simp only [parseLoop]
        rw [hl x (by simp)]
        simp only [Bool.false_eq_true, if_false]
        exact ih (fun n hn => hl n (List.mem_cons_of_mem x hn))
  exact main _ h

/-- A document whose only `<h1>` has non-whitelisted text. -/
def nonWhitelistedDoc : List HNode :=
  [HNode.elem 0 "h1" [HNode.text 1 "SECTION_ONE"],
   HNode.elem 2 "h2" [HNode.text 3 "PromoCodes"],
   HNode.elem 4 "table" [HNode.elem 5 "tr" [HNode.elem 6 "th" [HNode.text 7 "H"]]]]

theorem c6_no_whitelisted_h1_empty_witness :
    (∀ n ∈ findAllList (isTagNamed "h1") nonWhitelistedDoc,
        H1_WHITELIST.contains (jsTrim (textContent n)) = false) ∧
    parseHtmlH1H2Tables nonWhitelistedDoc = [] :=
  ⟨by decide, c6_no_whitelisted_h1_empty nonWhitelistedDoc (by decide)⟩

/-! ## Claim C2: presence of a sub-level key in the section walk -/

/-- Spec-side characterization: the section walk starting on `sibs` with the
given boundary produces the key `k` exactly when some sibling, reached before
the boundary node, is an `<h2>` with whitelisted trimmed text `k` whose
forward table scan succeeds. -/
def ProducedKey (boundary : Option Nat) (sibs : List HNode) (k : String) : Prop :=
  ∃ pre s post, sibs = pre ++ s :: post ∧
    (∀ x ∈ pre, boundary ≠ some (HNode.nodeId x)) ∧
    boundary ≠ some (HNode.nodeId s) ∧
    isTagNamed "h2" s = true ∧
    jsTrim (textContent s) = k ∧
    H2_WHITELIST.contains k = true ∧
    (findNextTableSibling post).isSome = true

theorem producedKey_nil (b : Option Nat) (k : String) : ¬ ProducedKey b [] k := by
  rintro ⟨pre, s, post, heq, -, -, -, -, -, -⟩
  exact List.cons_ne_nil s post (List.append_eq_nil.mp heq.symm).2

theorem producedKey_cons_stop {b : Option Nat} {s : HNode} {rest : List HNode}
    {k : String} (hb : b = some s.nodeId) : ¬ ProducedKey b (s :: rest) k := by
  rintro ⟨pre, s', post, heq, hpre, hbs, -, -, -, -⟩
  cases pre with
  | nil =>
      simp only [List.nil_append, List.cons.injEq] at heq
      exact hbs (heq.1 ▸ hb)
  | cons x pre' =>
      simp only [List.cons_append, List.cons.injEq] at heq
      exact hpre x (by simp) (heq.1 ▸ hb)

theorem producedKey_cons {b : Option Nat} {s : HNode} {rest : List HNode}
    {k : String} (hb : b ≠ some s.nodeId) :
    ProducedKey b (s :: rest) k ↔
      ((isTagNamed "h2" s = true ∧ jsTrim (textContent s) = k ∧
          H2_WHITELIST.contains k = true ∧
          (findNextTableSibling rest).isSome = true) ∨
        ProducedKey b rest k) := by
  constructor
  · rintro ⟨pre, s', post, heq, hpre, hbs, h2, htr, hw, hf⟩
    cases pre with
    | nil =>
        simp only [List.nil_append, List.cons.injEq] at heq
        obtain ⟨rfl, rfl⟩ := heq
        exact Or.inl ⟨h2, htr, hw, hf⟩
    | cons x pre' =>
        simp only [List.cons_append, List.cons.injEq] at heq
        obtain ⟨rfl, heq'⟩ := heq
        exact Or.inr ⟨pre', s', post, heq',
          fun y hy => hpre y (List.mem_cons_of_mem _ hy), hbs, h2, htr, hw, hf⟩
  · rintro (⟨h2, htr, hw, hf⟩ | ⟨pre, s', post, heq, hpre, hbs, h2, htr, hw, hf⟩)
    · exact ⟨[], s, rest, rfl, by simp, hb, h2, htr, hw, hf⟩
    · refine ⟨s :: pre, s', post, by rw [heq, List.cons_append], ?_, hbs,
        h2, htr, hw, hf⟩
      intro y hy
      rcases List.mem_cons.mp hy with rfl | hy'
      · exact hb
      · exact hpre y hy'

theorem walkSection_hasKey (b : Option Nat) :
    ∀ (sibs : List HNode) (acc : InnerMap) (k : String),
      hasKey (walkSection b sibs acc) k = true ↔
        (hasKey acc k = true ∨ ProducedKey b sibs k) := by
  intro sibs
  induction sibs with
  | nil =>
      intro acc k
      simp only [walkSection]
      exact ⟨Or.inl, fun h => h.elim id (fun hp => absurd hp (producedKey_nil b k))⟩
  | cons s rest ih =>
      intro acc k
      by_cases hb : b = some s.nodeId
      · have hbeq : (b == some s.nodeId) = true := beq_iff_eq.mpr hb
        simp only [walkSection, hbeq, if_true]
        exact ⟨Or.inl,
          fun h => h.elim id (fun hp => absurd hp (producedKey_cons_stop hb))⟩
      · have hbeq : (b == some s.nodeId) = false := beq_eq_false_iff_ne.mpr hb
        simp only [walkSection, hbeq, Bool.false_eq_true, if_false]
        rw [producedKey_cons hb]
        by_cases h2 : isTagNamed "h2" s = true
        · rw [if_pos h2]
          by_cases hw : H2_WHITELIST.contains (jsTrim (textContent s)) = true
          · rw [if_pos hw]
            cases hT : findNextTableSibling rest with
            | some t =>
                rw [ih (setKey acc (jsTrim (textContent s)) (parseSingleTable t)) k]
                rw [hasKey_setKey_iff acc (jsTrim (textContent s)) k
                  (parseSingleTable t)]
                constructor
                · rintro ((rfl | ha) | hp)
                  · exact Or.inr (Or.inl ⟨h2, rfl, hw, rfl⟩)
                  · exact Or.inl ha
                  · exact Or.inr (Or.inr hp)
                · rintro (ha | (⟨-, htr, -, -⟩ | hp))
                  · exact Or.inl (Or.inr ha)
                  · exact Or.inl (Or.inl htr)
                  · exact Or.inr hp
            | none =>
                rw [ih acc k]
                constructor
                · rintro (ha | hp)
                  · exact Or.inl ha
                  · exact Or.inr (Or.inr hp)
                · rintro (ha | (⟨-, -, -, hf⟩ | hp))
                  · exact Or.inl ha
                  · exact absurd hf (by simp)
                  · exact Or.inr hp
          · rw [if_neg hw]
            rw [ih acc k]
            constructor
            · rintro (ha | hp)
              · exact Or.inl ha
              · exact Or.inr (Or.inr hp)
            · rintro (ha | (⟨-, htr, hwk, -⟩ | hp))
              · exact Or.inl ha
              · exact absurd (htr ▸ hwk) hw
              · exact Or.inr hp
        · rw [if_neg h2]
          rw [ih acc k]
          constructor
          · rintro (ha | hp)
            · exact Or.inl ha
            · exact Or.inr (Or.inr hp)
          · rintro (ha | (⟨h2', -, -, -⟩ | hp))
            · exact Or.inl ha
            · exact absurd h2' h2
            · exact Or.inr hp

/-- C2: in the section walk a sub-level key is present in the produced
sub-map if and only if some sibling reached strictly before the boundary
node is an `<h2>` whose trimmed text is that key, that text passes the
sub-level whitelist, and the forward table scan from the following siblings
finds a table; in particular, when no table is found no key is inserted. -/
theorem c2_sublevel_key_iff (b : Option Nat) (sibs : List HNode) (k : String) :
    hasKey (walkSection b sibs []) k = true ↔
      ∃ pre s post, sibs = pre ++ s :: post ∧
        (∀ x ∈ pre, b ≠ some (HNode.nodeId x)) ∧
        b ≠ some (HNode.nodeId s) ∧
        isTagNamed "h2" s = true ∧
        jsTrim (textContent s) = k ∧
        H2_WHITELIST.contains k = true ∧
        (findNextTableSibling post).isSome = true := by
  rw [walkSection_hasKey b sibs [] k]
  have hnil : hasKey ([] : InnerMap) k = false := rfl
  simp only [hnil, Bool.false_eq_true, false_or]
  exact Iff.rfl

/-- The sibling chain following a whitelisted `<h2>` with a table after it. -/
def c2SectionSibs : List HNode :=
  [HNode.elem 1 "h2" [HNode.text 2 "PromoCodes"],
   HNode.elem 3 "table" []]

theorem c2_sublevel_key_iff_witness :
    hasKey (walkSection (some 99) c2SectionSibs []) "PromoCodes" = true :=
  (c2_sublevel_key_iff (some 99) c2SectionSibs "PromoCodes").mpr
    ⟨[], HNode.elem 1 "h2" [HNode.text 2 "PromoCodes"], [HNode.elem 3 "table" []],
      rfl, by simp, by decide, by decide, by decide, by decide, by decide⟩

/-! ## Claim C9: every output key comes from the whitelists -/

theorem all_setKey {α : Type} (P : String × α → Bool) {m : List (String × α)}
    {k : String} {v : α} (hm : m.all P = true) (hkv : P (k, v) = true) :
    (setKey m k v).all P = true := by
  rw [List.all_eq_true] at hm ⊢
  intro x hx
  rcases mem_setKey hx with rfl | hxm
  · exact hkv
  · exact hm x hxm

theorem walkSection_all_keys (b : Option Nat) :
    ∀ (sibs : List HNode) (acc : InnerMap),
      acc.all (fun q => H2_WHITELIST.contains q.1) = true →
      (walkSection b sibs acc).all
        (fun q => H2_WHITELIST.contains q.1) = true := by
  intro sibs
  induction sibs with
  | nil => intro acc h; simpa [walkSection] using h
  | cons s rest ih =>
      intro acc h
      simp only [walkSection]
      by_cases hb : (b == some s.nodeId) = true
      · rw [if_pos hb]; exact h
      · rw [if_neg hb]
        by_cases h2 : isTagNamed "h2" s = true
        · rw [if_pos h2]
          by_cases hw : H2_WHITELIST.contains (jsTrim (textContent s)) = true
          · rw [if_pos hw]
            cases hT : findNextTableSibling rest with
            | some t => exact ih _ (all_setKey _ h hw)
            | none => exact ih _ h
          · rw [if_neg hw]
            exact ih _ h
        · rw [if_neg h2]
          exact ih _ h

theorem parseLoop_all_keys (doc : List HNode) :
    ∀ (l : List HNode) (parsed : ParsedData),
      parsed.all (fun p => H1_WHITELIST.contains p.1 &&
        p.2.all (fun q => H2_WHITELIST.contains q.1)) = true →
      (parseLoop doc l parsed).all (fun p => H1_WHITELIST.contains p.1 &&
        p.2.all (fun q => H2_WHITELIST.contains q.1)) = true := by
  intro l
  induction l with
  | nil => intro parsed h; simpa [parseLoop] using h
  | cons x xs ih =>
      intro parsed h
      simp only [parseLoop]
      by_cases hc : H1_WHITELIST.contains (jsTrim (textContent x)) = true
      · rw [if_pos hc]
        apply ih
        apply all_setKey _ h
        rw [Bool.and_eq_true]
        exact ⟨hc, walkSection_all_keys _ _ [] rfl⟩
      · rw [if_neg hc]
        exact ih parsed h

/-- C9: in every extraction result, every top-level key belongs to
`H1_WHITELIST` and every sub-level key beneath it belongs to `H2_WHITELIST`;
no other key ever appears. -/
theorem c9_keys_whitelisted (doc : List HNode) :
    (parseHtmlH1H2Tables doc).all (fun p => H1_WHITELIST.contains p.1 &&
      p.2.all (fun q => H2_WHITELIST.contains q.1)) = true :=
  parseLoop_all_keys doc _ [] rfl

/-! ## Claims C7 and C8: section scoping and duplicate top-level headings -/

/-- An `<h1>` heading node holding one text node. -/
def h1Node (i : Nat) (s : String) : HNode :=
  HNode.elem i "h1" [HNode.text (i + 1) s]

/-- An `<h2>` heading node holding one text node. -/
def h2Node (i : Nat) (s : String) : HNode :=
  HNode.elem i "h2" [HNode.text (i + 1) s]

/-- A one-row, one-column table: one `<th>` header and one `<td>` cell. -/
def oneRowTable (i : Nat) (hd v : String) : HNode :=
  HNode.elem i "table"
    [HNode.elem (i + 1) "tr"
      [HNode.elem (i + 2) "th" [HNode.text (i + 3) hd],
       HNode.elem (i + 4) "td" [HNode.text (i + 5) v]]]

/-- Two consecutive top-level sections, each with one sub-level heading and a
one-row table. -/
def scenarioTwoSections (a b c d hd1 v1 hd2 v2 : String) : List HNode :=
  [h1Node 0 a, h2Node 10 b, oneRowTable 20 hd1 v1,
   h1Node 30 c, h2Node 40 d, oneRowTable 50 hd2 v2]

/-- C7: with two whitelisted top-level headings in sequence, each followed by
a whitelisted sub-level heading and a one-row table, the result has exactly
two top-level keys and each sub-map is built only from the siblings strictly
between its heading and the next top-level heading: nothing after the second
top-level heading appears under the first key. -/
theorem c7_two_sections_scoped (a b c d hd1 v1 hd2 v2 : String)
    (ha : H1_WHITELIST.contains (jsTrim a) = true)
    (hb : H2_WHITELIST.contains (jsTrim b) = true)
    (hc : H1_WHITELIST.contains (jsTrim c) = true)
    (hd : H2_WHITELIST.contains (jsTrim d) = true)
    (hac : (jsTrim a == jsTrim c) = false) :
    parseHtmlH1H2Tables (scenarioTwoSections a b c d hd1 v1 hd2 v2) =
      [(jsTrim a, [(jsTrim b, [[(jsTrim hd1, jsTrim v1)]])]),
       (jsTrim c, [(jsTrim d, [[(jsTrim hd2, jsTrim v2)]])])] := by
  have ha' : jsTrim a ∈ H1_WHITELIST := by simpa using ha
  have hb' : jsTrim b ∈ H2_WHITELIST := by simpa using hb
  have hc' : jsTrim c ∈ H1_WHITELIST := by simpa using hc
  have hd' : jsTrim d ∈ H2_WHITELIST := by simpa using hd
  simp [parseHtmlH1H2Tables, parseLoop, walkSection, findAllList, findAllNode,
    siblingsAfterId, siblingsInNode, findNextTableSibling, parseSingleTable,
    tableRows, tableHeaders, rowCells, buildRow, setKey, textContent,
    textContentList, scenarioTwoSections, h1Node, h2Node, oneRowTable,
    isTagNamed, HNode.nodeId, String.append_empty, ha, hb, hc, hd, hac,
    ha', hb', hc', hd']

theorem c7_two_sections_scoped_witness :
    H1_WHITELIST.contains (jsTrim "Call of Duty: Vanguard") = true ∧
    H1_WHITELIST.contains (jsTrim "Call of Duty: Modern Warfare") = true ∧
    parseHtmlH1H2Tables
        (scenarioTwoSections "Call of Duty: Vanguard" "PromoCodes"
          "Call of Duty: Modern Warfare"
          "Sessions Data (reverse chronological)" "H" "v1" "K" "v2") =
      [("Call of Duty: Vanguard", [("PromoCodes", [[("H", "v1")]])]),
       ("Call of Duty: Modern Warfare",
         [("Sessions Data (reverse chronological)", [[("K", "v2")]])])] := by
  refine ⟨by decide, by decide, ?_⟩
  rw [c7_two_sections_scoped "Call of Duty: Vanguard" "PromoCodes"
    "Call of Duty: Modern Warfare" "Sessions Data (reverse chronological)"
    "H" "v1" "K" "v2" (by decide) (by decide) (by decide) (by decide) (by decide)]
  rfl

/-- Two sections whose top-level headings carry the same text `a`, the first
with sub-heading `b` and a table, the second with sub-heading `d` and a
table. -/
def scenarioDupH1 (a b d hd1 v1 hd2 v2 : String) : List HNode :=
  [h1Node 0 a, h2Node 10 b, oneRowTable 20 hd1 v1,
   h1Node 30 a, h2Node 40 d, oneRowTable 50 hd2 v2]

/-- C8: when the same whitelisted top-level heading text occurs on two
heading nodes, the result has a single key for that text and its sub-map is
entirely that of the last occurrence: the earlier sub-map (here containing
`b`) is replaced by a fresh one filled only from the later section. -/
theorem c8_duplicate_h1_overwrites (a b d hd1 v1 hd2 v2 : String)
    (ha : H1_WHITELIST.contains (jsTrim a) = true)
    (hb : H2_WHITELIST.contains (jsTrim b) = true)
    (hd : H2_WHITELIST.contains (jsTrim d) = true) :
    parseHtmlH1H2Tables (scenarioDupH1 a b d hd1 v1 hd2 v2) =
      [(jsTrim a, [(jsTrim d, [[(jsTrim hd2, jsTrim v2)]])])] := by
  have ha' : jsTrim a ∈ H1_WHITELIST := by simpa using ha
  have hb' : jsTrim b ∈ H2_WHITELIST := by simpa using hb
  have hd' : jsTrim d ∈ H2_WHITELIST := by simpa using hd
  simp [parseHtmlH1H2Tables, parseLoop, walkSection, findAllList, findAllNode,
    siblingsAfterId, siblingsInNode, findNextTableSibling, parseSingleTable,
    tableRows, tableHeaders, rowCells, buildRow, setKey, textContent,
    textContentList, scenarioDupH1, h1Node, h2Node, oneRowTable,
    isTagNamed, HNode.nodeId, String.append_empty, ha, hb, hd, ha', hb', hd']

theorem c8_duplicate_h1_overwrites_witness :
    H1_WHITELIST.contains (jsTrim "Call of Duty: Vanguard") = true ∧
    parseHtmlH1H2Tables
        (scenarioDupH1 "Call of Duty: Vanguard" "PromoCodes"
          "Sessions Data (reverse chronological)" "H" "v1" "K" "v2") =
      [("Call of Duty: Vanguard",
         [("Sessions Data (reverse chronological)", [[("K", "v2")]])])] := by
  refine ⟨by decide, ?_⟩
  rw [c8_duplicate_h1_overwrites "Call of Duty: Vanguard" "PromoCodes"
    "Sessions Data (reverse chronological)" "H" "v1" "K" "v2"
    (by decide) (by decide) (by decide)]
  rfl

/-! ## Claim C10: termination via an explicit step budget -/

mutual

/-- Number of nodes in a tree. -/
def nodeCount : HNode → Nat
  | .elem _ _ cs => 1 + nodeCountList cs
  | _ => 1

/-- Number of nodes in a forest. -/
def nodeCountList : List HNode → Nat
  | [] => 0
  | n :: rest => nodeCount n + nodeCountList rest

end

theorem one_le_nodeCount (n : HNode) : 1 ≤ nodeCount n := by
  cases n <;> simp [nodeCount]

theorem length_le_nodeCountList (l : List HNode) :
    l.length ≤ nodeCountList l := by
  induction l with
  | nil => simp [nodeCountList]
  | cons n rest ih =>
      have h1 := one_le_nodeCount n
      simp only [List.length_cons, nodeCountList]
      omega

theorem findAllList_length_le_fuel (p : HNode → Bool) :
    ∀ (fuel : Nat) (l : List HNode), nodeCountList l ≤ fuel →
      (findAllList p l).length ≤ nodeCountList l := by
  intro fuel
  induction fuel with
  | zero =>
      intro l hl
      cases l with
      | nil => simp [findAllList]
      | cons n rest =>
          exfalso
          have h1 := one_le_nodeCount n
          simp only [nodeCountList] at hl
          omega
  | succ f ih =>
      intro l hl
      cases l with
      | nil => simp [findAllList]
      | cons n rest =>
          cases n with
          | elem i nm cs =>
              have hbound : nodeCountList (HNode.elem i nm cs :: rest) =
                  1 + nodeCountList cs + nodeCountList rest := by
                simp [nodeCountList, nodeCount]
              have hcs : (findAllList p cs).length ≤ nodeCountList cs :=
                ih cs (by rw [hbound] at hl; omega)
              have hrest : (findAllList p rest).length ≤ nodeCountList rest :=
                ih rest (by rw [hbound] at hl; omega)
              rw [hbound]
              simp only [findAllList, findAllNode, List.length_append]
              by_cases hp : p (HNode.elem i nm cs) = true
              · rw [if_pos hp]
                simp only [List.length_cons, List.length_nil]
                omega
              · rw [if_neg hp]
                simp only [List.length_nil]
                omega
          | text i s =>
              have hrest : (findAllList p rest).length ≤ nodeCountList rest :=
                ih rest (by simp only [nodeCountList, nodeCount] at hl; omega)
              simp only [findAllList, findAllNode, nodeCountList, nodeCount,
                List.nil_append]
              omega
          | other i =>
              have hrest : (findAllList p rest).length ≤ nodeCountList rest :=
                ih rest (by simp only [nodeCountList, nodeCount] at hl; omega)
              simp only [findAllList, findAllNode, nodeCountList, nodeCount,
                List.nil_append]
              omega

theorem findAllList_length_le (p : HNode → Bool) (l : List HNode) :
    (findAllList p l).length ≤ nodeCountList l :=
  findAllList_length_le_fuel p (nodeCountList l) l (le_refl _)

theorem siblingsAfterId_length_le_fuel :
    ∀ (fuel : Nat) (l : List HNode) (i : Nat) (l' : List HNode),
      nodeCountList l ≤ fuel → siblingsAfterId l i = some l' →
      l'.length ≤ nodeCountList l := by
  intro fuel
  induction fuel with
  | zero =>
      intro l i l' hl h
      cases l with
      | nil => simp [siblingsAfterId] at h
      | cons n rest =>
          exfalso
          have h1 := one_le_nodeCount n
          simp only [nodeCountList] at hl
          omega
  | succ f ih =>
      intro l i l' hl h
      cases l with
      | nil => simp [siblingsAfterId] at h
      | cons n rest =>
          simp only [siblingsAfterId] at h
          by_cases hn : (n.nodeId == i) = true
          · rw [if_pos hn] at h
            have hr : rest = l' := by simpa using h
            have hlen := length_le_nodeCountList rest
            have h1 := one_le_nodeCount n
            simp only [nodeCountList, ← hr]
            omega
          · rw [if_neg hn] at h
            cases n with
            | elem j nm cs =>
                simp only [siblingsInNode] at h
                have hbound : nodeCountList (HNode.elem j nm cs :: rest) =
                    1 + nodeCountList cs + nodeCountList rest := by
                  simp [nodeCountList, nodeCount]
                cases hcs : siblingsAfterId cs i with
                | some l2 =>
                    rw [hcs] at h
                    have hl2 : l2 = l' := by simpa using h
                    have := ih cs i l2 (by rw [hbound] at hl; omega) hcs
                    rw [hbound, ← hl2]
                    omega
                | none =>
                    rw [hcs] at h
                    have := ih rest i l' (by rw [hbound] at hl; omega) h
                    rw [hbound]
                    omega
            | text j s =>
                simp only [siblingsInNode] at h
                have := ih rest i l'
                  (by simp only [nodeCountList, nodeCount] at hl; omega) h
                simp only [nodeCountList, nodeCount]
                omega
            | other j =>
                simp only [siblingsInNode] at h
                have := ih rest i l'
                  (by simp only [nodeCountList, nodeCount] at hl; omega) h
                simp only [nodeCountList, nodeCount]
                omega

theorem siblingsAfterId_length_le (l : List HNode) (i : Nat) (l' : List HNode)
    (h : siblingsAfterId l i = some l') : l'.length ≤ nodeCountList l :=
  siblingsAfterId_length_le_fuel (nodeCountList l) l i l' (le_refl _) h

/-- `findNextTableSibling` under an explicit step budget: one unit per
sibling visited; the outer `none` signals budget exhaustion. -/
def findNextTableSiblingFuel : Nat → List HNode → Option (Option HNode)
  | _, [] => some none
  | 0, _ :: _ => none
  | f + 1, n :: rest =>
      if isTagNamed "h2" n then some none
      else if isTagNamed "h1" n then some none
      else if isTagNamed "table" n then some (some n)
      else findNextTableSiblingFuel f rest

/-- The section walk under explicit step budgets: one unit of `f` per sibling
visited, each inner table scan running on budget `scanFuel`. -/
def walkSectionFuel (scanFuel : Nat) :
    Nat → Option Nat → List HNode → InnerMap → Option InnerMap
  | _, _, [], acc => some acc
  | 0, _, _ :: _, _ => none
  | f + 1, b, s :: rest, acc =>
      if b == some s.nodeId then some acc
      else if isTagNamed "h2" s then
        if H2_WHITELIST.contains (jsTrim (textContent s)) then
          match findNextTableSiblingFuel scanFuel rest with
          | none => none
          | some none => walkSectionFuel scanFuel f b rest acc
          | some (some t) =>
              walkSectionFuel scanFuel f b rest
                (setKey acc (jsTrim (textContent s)) (parseSingleTable t))
        else walkSectionFuel scanFuel f b rest acc
      else walkSectionFuel scanFuel f b rest acc

/-- The outer heading loop under explicit step budgets: one unit of `f` per
collected heading, each section walk running on budget `innerFuel`. -/
def parseLoopFuel (doc : List HNode) (innerFuel : Nat) :
    Nat → List HNode → ParsedData → Option ParsedData
  | _, [], parsed => some parsed
  | 0, _ :: _, _ => none
  | f + 1, h :: rest, parsed =>
      if H1_WHITELIST.contains (jsTrim (textContent h)) then
        match walkSectionFuel innerFuel innerFuel (rest.head?.map HNode.nodeId)
            ((siblingsAfterId doc h.nodeId).getD []) [] with
        | none => none
        | some inner =>
            parseLoopFuel doc innerFuel f rest
              (setKey parsed (jsTrim (textContent h)) inner)
      else parseLoopFuel doc innerFuel f rest parsed

/-- The whole extraction with every loop running on the same step budget. -/
def parseHtmlH1H2TablesFuel (fuel : Nat) (doc : List HNode) :
    Option ParsedData :=
  parseLoopFuel doc fuel fuel (findAllList (isTagNamed "h1") doc) []

theorem findNextTableSiblingFuel_eq :
    ∀ (f : Nat) (sibs : List HNode), sibs.length ≤ f →
      findNextTableSiblingFuel f sibs = some (findNextTableSibling sibs) := by
  intro f
  induction f with
  | zero =>
      intro sibs h
      cases sibs with
      | nil => rfl
      | cons n rest => simp at h
  | succ f ih =>
      intro sibs h
      cases sibs with
      | nil => rfl
      | cons n rest =>
          simp only [findNextTableSiblingFuel, findNextTableSibling]
          by_cases h2 : isTagNamed "h2" n = true
          · rw [if_pos h2, if_pos h2]
          · rw [if_neg h2, if_neg h2]
            by_cases h1 : isTagNamed "h1" n = true
            · rw [if_pos h1, if_pos h1]
            · rw [if_neg h1, if_neg h1]
              by_cases ht : isTagNamed "table" n = true
              · rw [if_pos ht, if_pos ht]
              · rw [if_neg ht, if_neg ht]
                exact ih rest (by simp at h; omega)

theorem walkSectionFuel_eq (scanFuel : Nat) :
    ∀ (sibs : List HNode) (f : Nat) (b : Option Nat) (acc : InnerMap),
      sibs.length ≤ f → sibs.length ≤ scanFuel →
      walkSectionFuel scanFuel f b sibs acc = some (walkSection b sibs acc) := by
  intro sibs
  induction sibs with
  | nil =>
      intro f b acc _ _
      cases f <;> rfl
  | cons s rest ih =>
      intro f b acc hf hscan
      cases f with
      | zero => simp at hf
      | succ f =>
          have hrestf : rest.length ≤ f := by simp at hf; omega
          have hrests : rest.length ≤ scanFuel := by simp at hscan; omega
          simp only [walkSectionFuel, walkSection]
          by_cases hb : (b == some s.nodeId) = true
          · rw [if_pos hb, if_pos hb]
          · rw [if_neg hb, if_neg hb]
            by_cases h2 : isTagNamed "h2" s = true
            · rw [if_pos h2, if_pos h2]
              by_cases hw : H2_WHITELIST.contains (jsTrim (textContent s)) = true
              · rw [if_pos hw, if_pos hw]
                rw [findNextTableSiblingFuel_eq scanFuel rest hrests]
                cases hT : findNextTableSibling rest with
                | some t => exact ih f b _ hrestf hrests
                | none => exact ih f b acc hrestf hrests
              · rw [if_neg hw, if_neg hw]
                exact ih f b acc hrestf hrests
            · rw [if_neg h2, if_neg h2]
              exact ih f b acc hrestf hrests

theorem parseLoopFuel_eq (doc : List HNode) (N : Nat)
    (hN : nodeCountList doc ≤ N) :
    ∀ (l : List HNode) (f : Nat) (parsed : ParsedData),
      l.length ≤ f →
      parseLoopFuel doc N f l parsed = some (parseLoop doc l parsed) := by
  intro l
  induction l with
  | nil =>
      intro f parsed _
      cases f <;> rfl
  | cons h rest ih =>
      intro f parsed hf
      cases f with
      | zero => simp at hf
      | succ f =>
          have hrest : rest.length ≤ f := by simp at hf; omega
          simp only [parseLoopFuel, parseLoop]
          by_cases hc : H1_WHITELIST.contains (jsTrim (textContent h)) = true
          · rw [if_pos hc, if_pos hc]
            have hsibs : ((siblingsAfterId doc h.nodeId).getD []).length ≤ N := by
              cases hs : siblingsAfterId doc h.nodeId with
              | some l2 =>
                  have := siblingsAfterId_length_le doc h.nodeId l2 hs
                  simp only [Option.getD]
                  omega
              | none => simp [Option.getD]
            rw [walkSectionFuel_eq N _ N _ [] hsibs hsibs]
            exact ih f _ hrest
          · rw [if_neg hc, if_neg hc]
            exact ih f parsed hrest

/-- C10: the extraction terminates — running every loop of
`parseHtmlH1H2Tables` under any explicit step budget of at least the number
of nodes of the document completes (never exhausts the budget) and computes
the same result: the outer loop spends one step per collected heading and
both sibling walks advance strictly forward through finite sibling chains
whose length is bounded by the node count. -/
theorem c10_fuel_terminates (doc : List HNode) (fuel : Nat)
    (h : nodeCountList doc ≤ fuel) :
    parseHtmlH1H2TablesFuel fuel doc = some (parseHtmlH1H2Tables doc) := by
  unfold parseHtmlH1H2TablesFuel parseHtmlH1H2Tables
  exact parseLoopFuel_eq doc fuel h (findAllList (isTagNamed "h1") doc) fuel []
    (le_trans (findAllList_length_le (isTagNamed "h1") doc) h)

theorem c10_fuel_terminates_witness :
    nodeCountList nonWhitelistedDoc ≤ 32 ∧
    parseHtmlH1H2TablesFuel 32 nonWhitelistedDoc =
      some (parseHtmlH1H2Tables nonWhitelistedDoc) :=
  ⟨by decide, c10_fuel_terminates nonWhitelistedDoc 32 (by decide)⟩
